import Mathlib

/-!
Verification development for the token-based document chunker in
`backend/app/services/preprocessing_service.py`.

The embedding instantiates the two provider hierarchies at their guaranteed
fallback backends, exactly as the source defines them:
- tokenizer: the whitespace fallback (`len(text.split())`, `tokenizer_type = "whitespace"`),
- sentence segmentation: the regex fallback (`re.split(r'(?<=[.!?])\s+(?=[A-Z])', text)`).

Text is modelled as `List Char`; Python `int` arguments and offsets are
modelled as `Int`; token counts (which are lengths/sums of lengths) as `Nat`.
Metadata dictionaries are modelled as a record in which a key that the source
omits is represented by `oversized_split = false` (the key is only ever set to
`True`) and `sentence_count = none`.
-/

namespace ChunkSpec

/-- Text is a list of characters; `txt` injects a string literal. -/
abbrev Text := List Char

def txt (s : String) : Text := s.data

/-- Whitespace as recognized by Python's `str.split()` / `str.strip()`
(ASCII subset: space, tab, newline, carriage return, vertical tab, form feed). -/
def isPyWs (c : Char) : Bool :=
  c == ' ' || c == '\t' || c == '\n' || c == '\r' || c == '\x0b' || c == '\x0c'

/-- Python `str.lstrip()`. -/
def pyLstrip (t : Text) : Text := t.dropWhile isPyWs

/-- Python `str.rstrip()`. -/
def pyRstrip (t : Text) : Text := (t.reverse.dropWhile isPyWs).reverse

/-- Python `str.strip()`. -/
def pyStrip (t : Text) : Text := pyRstrip (pyLstrip t)

/-- Python `str.split()` with no argument: the list of maximal runs of
non-whitespace characters. -/
def pySplit (t : Text) : List Text :=
  (t.foldr
    (fun c acc =>
      if isPyWs c then [] :: acc
      else
        match acc with
        | [] => [[c]]
        | w :: ws => (c :: w) :: ws)
    []).filter (fun w => !w.isEmpty)

/-- Source `_count_tokens` with the whitespace fallback backend:
returns 0 for empty/whitespace-only input, otherwise `len(text.split())`. -/
def countTokens (t : Text) : Nat :=
  if (pyStrip t).isEmpty then 0 else (pySplit t).length

/-- Uppercase ASCII letter, the class `[A-Z]` of the sentence regex. -/
def isUpperAZ (c : Char) : Bool := 'A' ≤ c && c ≤ 'Z'

/-- Sentence-ending punctuation, the class `[.!?]` of the sentence regex. -/
def isSentEnd (c : Char) : Bool := c == '.' || c == '!' || c == '?'

/-- Whether the last character already scanned into the current segment
(stored reversed) is sentence-ending punctuation: the regex lookbehind. -/
def lastIsSentEnd : Text → Bool
  | [] => false
  | c :: _ => isSentEnd c

/-- One-pass scanner equivalent to `re.split(r'(?<=[.!?])\s+(?=[A-Z])', text)`.
`cur` is the current segment reversed, `pend` is the pending whitespace run
reversed, `acc` the completed segments. A split happens exactly when a
nonempty whitespace run is immediately preceded by `[.!?]` and immediately
followed by `[A-Z]`; the run is then consumed as the separator, otherwise it
belongs to the current segment. -/
def segGo : Text → Text → Text → List Text → List Text
  | [], cur, pend, acc => acc ++ [(pend ++ cur).reverse]
  | c :: rest, cur, pend, acc =>
    if isPyWs c then segGo rest cur (c :: pend) acc
    else if !pend.isEmpty && lastIsSentEnd cur && isUpperAZ c then
      segGo rest [c] [] (acc ++ [cur.reverse])
    else
      segGo rest (c :: (pend ++ cur)) [] acc

/-- The raw regex split of the source's regex sentence-splitting fallback. -/
def reSplitSegments (t : Text) : List Text := segGo t [] [] []

/-- Source `_segment_sentences` with the regex backend: empty for
whitespace-only input, otherwise the stripped, nonempty split segments. -/
def segmentSentences (t : Text) : List Text :=
  if (pyStrip t).isEmpty then []
  else ((reSplitSegments t).map pyStrip).filter (fun s => !s.isEmpty)

/-- Python `" ".join(parts)`. -/
def joinSp : List Text → Text
  | [] => []
  | [w] => w
  | w :: ws => w ++ ' ' :: joinSp ws

/-- The metadata dictionary attached to each chunk by the source.
A key the source does not put in the dictionary is modelled as
`oversized_split = false` / `sentence_count = none`. -/
structure ChunkMeta where
  chunk_index : Int
  start_token : Int
  end_token : Int
  char_offset_start : Int
  char_offset_end : Int
  chunk_method : String
  page_number : Option Nat
  tokenizer_type : String
  oversized_split : Bool
  sentence_count : Option Nat
  deriving DecidableEq, Repr

/-- A chunk dictionary as produced by `_token_based_chunker` /
`_split_oversized_sentence`: text, token count and metadata. -/
structure Chunk where
  text : Text
  token_count : Nat
  meta : ChunkMeta
  deriving DecidableEq, Repr

/-- Sum of the token counts of a list of sentences. -/
def sumTokens (l : List Text) : Nat := (l.map countTokens).sum

/-- Sum of the recorded token counts of a list of chunks. -/
def sumCounts (l : List Chunk) : Nat := (l.map (fun ch => ch.token_count)).sum

/-- State of the word-level loop of `_split_oversized_sentence`. -/
structure OsState where
  chunks : List Chunk
  current_words : List Text
  current_tokens : Nat
  start_token_offset : Int
  local_char_offset : Int
  deriving DecidableEq, Repr

/-- The chunk dictionary built at each emission site of
`_split_oversized_sentence` (placeholder `chunk_index = -1`, to be set by the
caller; `oversized_split = True`; no `sentence_count` key). -/
def mkOsChunk (page : Option Nat) (st : OsState) : Chunk :=
  let chunk_text := joinSp st.current_words
  { text := chunk_text
    token_count := st.current_tokens
    meta :=
      { chunk_index := -1
        start_token := st.start_token_offset
        end_token := st.start_token_offset + (st.current_tokens : Int)
        char_offset_start := st.local_char_offset
        char_offset_end := st.local_char_offset + (chunk_text.length : Int)
        chunk_method := "token_based"
        page_number := page
        tokenizer_type := "whitespace"
        oversized_split := true
        sentence_count := none } }

/-- Loop body of `_split_oversized_sentence`: if adding the word would push
the running count past `chunk_tokens` and some words are pending, finalize
them as a chunk; then append the word. -/
def osStep (chunk_tokens : Int) (page : Option Nat) (st : OsState) (word : Text) : OsState :=
  let word_tokens := countTokens word
  let st1 :=
    if ((st.current_tokens + word_tokens : Nat) : Int) > chunk_tokens ∧ st.current_words ≠ [] then
      { chunks := st.chunks ++ [mkOsChunk page st]
        current_words := []
        current_tokens := 0
        start_token_offset := st.start_token_offset + (st.current_tokens : Int)
        local_char_offset := st.local_char_offset + ((joinSp st.current_words).length : Int) + 1 }
    else st
  { st1 with
      current_words := st1.current_words ++ [word]
      current_tokens := st1.current_tokens + word_tokens }

/-- Source `_split_oversized_sentence`: split one sentence word by word into
chunks flagged `oversized_split = True`. The `overlap_tokens` argument is
accepted but, as in the source, never used. -/
def splitOversizedSentence (chunk_tokens overlap_tokens : Int)
    (start_token_offset start_char_offset : Int) (page : Option Nat)
    (sentence : Text) : List Chunk :=
  let words := pySplit sentence
  let st := words.foldl (osStep chunk_tokens page)
    { chunks := []
      current_words := []
      current_tokens := 0
      start_token_offset := start_token_offset
      local_char_offset := start_char_offset }
  if st.current_words ≠ [] then st.chunks ++ [mkOsChunk page st] else st.chunks

/-- Reindexing loop used for oversized subchunks and for the per-page PDF
loop: each chunk in turn receives the next index starting from `n`. In the
source this is the pattern `chunk.metadata.chunk_index = counter; counter += 1`
(or `= len(chunks); chunks.append(chunk)`, which keeps the same counter). -/
def reindexFrom (n : Nat) : List Chunk → List Chunk
  | [] => []
  | ch :: cs =>
    { ch with meta := { ch.meta with chunk_index := (n : Int) } } :: reindexFrom (n + 1) cs

/-- The source's `for chunk in split_chunks: chunk.metadata.chunk_index =
len(chunks); chunks.append(chunk)`: since the list grows by one per append,
the appended chunks receive consecutive indices starting at the current
length. -/
def appendReindexed (chunks subs : List Chunk) : List Chunk :=
  chunks ++ reindexFrom chunks.length subs

/-- State of the sentence loop of `_token_based_chunker`. -/
structure ChunkerState where
  chunks : List Chunk
  current_chunk_sentences : List Text
  current_token_count : Nat
  global_token_offset : Int
  char_offset : Int
  deriving DecidableEq, Repr

/-- The chunk dictionary built at each of the three (identical) normal
emission sites of `_token_based_chunker`. -/
def mkNormalChunk (page : Option Nat) (st : ChunkerState) : Chunk :=
  let chunk_text := joinSp st.current_chunk_sentences
  { text := chunk_text
    token_count := st.current_token_count
    meta :=
      { chunk_index := (st.chunks.length : Int)
        start_token := st.global_token_offset
        end_token := st.global_token_offset + (st.current_token_count : Int)
        char_offset_start := st.char_offset - (chunk_text.length : Int)
        char_offset_end := st.char_offset
        chunk_method := "token_based"
        page_number := page
        tokenizer_type := "whitespace"
        oversized_split := false
        sentence_count := some st.current_chunk_sentences.length } }

/-- Append the pending buffer as a normal chunk (the emission statement
shared by the three emission sites). -/
def finalizeBuffer (page : Option Nat) (st : ChunkerState) : ChunkerState :=
  { st with chunks := st.chunks ++ [mkNormalChunk page st] }

/-- The overlap loop of `_token_based_chunker`: scan the sentences in
reverse, inserting each at the front of the tail while the running token
count stays within `overlap_tokens`, and stop at the first sentence that
would exceed it. `rl` is the reversed sentence list. -/
def overlapGo (overlap_tokens : Int) : List Text → List Text → Nat → List Text × Nat
  | [], acc, cnt => (acc, cnt)
  | s :: rest, acc, cnt =>
    if ((cnt + countTokens s : Nat) : Int) ≤ overlap_tokens then
      overlapGo overlap_tokens rest (s :: acc) (cnt + countTokens s)
    else (acc, cnt)

/-- The overlap tail and its token count, computed from the just-emitted
buffer (`for sent in reversed(current_chunk_sentences): ... else: break`). -/
def computeOverlap (overlap_tokens : Int) (sents : List Text) : List Text × Nat :=
  overlapGo overlap_tokens sents.reverse [] 0

/-- Flush at the flush-test site: emit the buffer, compute the overlap tail,
advance the global token offset by `current_token_count - overlap_count` and
reseed the buffer with the tail. -/
def flushWithOverlap (overlap_tokens : Int) (page : Option Nat) (st : ChunkerState) :
    ChunkerState :=
  let st1 := finalizeBuffer page st
  let p := computeOverlap overlap_tokens st.current_chunk_sentences
  { st1 with
      global_token_offset :=
        st1.global_token_offset + ((st.current_token_count : Int) - (p.2 : Int))
      current_chunk_sentences := p.1
      current_token_count := p.2 }

/-- Flush at the oversized-branch site: emit the buffer, advance the global
token offset by the whole buffer count and clear the buffer. -/
def flushHard (page : Option Nat) (st : ChunkerState) : ChunkerState :=
  let st1 := finalizeBuffer page st
  { st1 with
      global_token_offset := st1.global_token_offset + (st.current_token_count : Int)
      current_chunk_sentences := []
      current_token_count := 0 }

/-- Loop body of `_token_based_chunker` for one sentence: flush test with
overlap reseed, then either the oversized branch (hard flush, word-level
subchunks, advance by their full token sum) or a plain append to the
buffer. The character cursor advances by `len(sentence) + 1` in both
branches. -/
def stepSentence (chunk_tokens overlap_tokens : Int) (page : Option Nat)
    (st : ChunkerState) (sentence : Text) : ChunkerState :=
  let sentence_tokens := countTokens sentence
  let st1 :=
    if ((st.current_token_count + sentence_tokens : Nat) : Int) > chunk_tokens ∧
        st.current_chunk_sentences ≠ [] then
      flushWithOverlap overlap_tokens page st
    else st
  if (sentence_tokens : Int) > chunk_tokens then
    let st2 :=
      if st1.current_chunk_sentences ≠ [] then flushHard page st1 else st1
    let split_chunks := splitOversizedSentence chunk_tokens overlap_tokens
      st2.global_token_offset st2.char_offset page sentence
    { st2 with
        chunks := appendReindexed st2.chunks split_chunks
        global_token_offset := st2.global_token_offset + (sumCounts split_chunks : Int)
        char_offset := st2.char_offset + (sentence.length : Int) + 1 }
  else
    { st1 with
        current_chunk_sentences := st1.current_chunk_sentences ++ [sentence]
        current_token_count := st1.current_token_count + sentence_tokens
        char_offset := st1.char_offset + (sentence.length : Int) + 1 }

/-- Initial state of the sentence loop. -/
def initState : ChunkerState :=
  { chunks := []
    current_chunk_sentences := []
    current_token_count := 0
    global_token_offset := 0
    char_offset := 0 }

/-- Source `_token_based_chunker` (whitespace tokenizer, regex sentence
splitter): segment into sentences, fold the sentence loop, and flush any
remaining buffer as the final chunk. -/
def tokenBasedChunker (text : Text) (chunk_tokens overlap_tokens : Int)
    (page : Option Nat) : List Chunk :=
  if (pyStrip text).isEmpty then []
  else
    let sentences := segmentSentences text
    if sentences.isEmpty then []
    else
      let st := sentences.foldl (stepSentence chunk_tokens overlap_tokens page) initState
      if st.current_chunk_sentences ≠ [] then (finalizeBuffer page st).chunks
      else st.chunks

/-- Source `_chunk_pdf`, taking the page texts (the output of the external
`extract_pdf_pages` collaborator) directly: iterate pages with 1-based
numbers, skip whitespace-only pages, chunk each remaining page
independently, and hand out global chunk indices from a running counter. -/
def chunkPdf (pages : List Text) (chunk_tokens overlap_tokens : Int) : List Chunk :=
  ((pages.enumFrom 1).foldl
    (fun (acc : List Chunk × Nat) pg =>
      if (pyStrip pg.2).isEmpty then acc
      else
        let page_chunks := tokenBasedChunker pg.2 chunk_tokens overlap_tokens (some pg.1)
        (acc.1 ++ reindexFrom acc.2 page_chunks, acc.2 + page_chunks.length))
    ([], 0)).1

/-- The per-page fold of `_chunk_pdf`, named so the loop invariant can be
stated once: the accumulator carries the chunks so far and the running
global chunk counter. -/
def chunkPdfGo (chunk_tokens overlap_tokens : Int) (pgs : List (Nat × Text))
    (acc : List Chunk × Nat) : List Chunk × Nat :=
  pgs.foldl (fun a pg =>
    if (pyStrip pg.2).isEmpty then a
    else
      (a.1 ++ reindexFrom a.2 (tokenBasedChunker pg.2 chunk_tokens overlap_tokens (some pg.1)),
       a.2 + (tokenBasedChunker pg.2 chunk_tokens overlap_tokens (some pg.1)).length)) acc

/-- A `ContentChunk` database row as created by `preprocess_submission`:
`ContentChunk(submission_id=…, chunk_index=idx, text=…, token_count=…,
metadata=…)`. Submission ids are modelled as naturals. -/
structure ChunkRow where
  submission_id : Nat
  chunk_index : Nat
  text : Text
  token_count : Nat
  meta : ChunkMeta
  deriving DecidableEq, Repr

/-- A `Submission` row, with the fields `preprocess_submission` reads.
`original_content` models `submission.original_content or ""` (a missing
value collapses to empty text). The external parsers are modelled by
attaching their outputs for this submission's `file_path` to the record:
`file_pages` is what `extract_pdf_pages(file_path)` returns and `file_text`
what `parse_docx(file_path)` returns. -/
structure SubmissionRec where
  status : String
  content_type : String
  original_content : Text
  file_text : Text
  file_pages : List Text
  deriving DecidableEq, Repr

/-- The database state seen by the service: the `Submission` table and the
`ContentChunk` table. -/
structure DbState where
  submissions : List (Nat × SubmissionRec)
  chunks : List ChunkRow
  deriving DecidableEq, Repr

/-- The `self.db.query(Submission).filter_by(id=submission_id).first()`
lookup. -/
def findSubmission (db : DbState) (sid : Nat) : Option SubmissionRec :=
  (db.submissions.find? (fun p => p.1 == sid)).map (fun p => p.2)

/-- The `ContentChunk` rows of one submission (the `submission.chunks`
relationship, and the row set deleted by `delete_chunks`). -/
def subChunkRows (db : DbState) (sid : Nat) : List ChunkRow :=
  db.chunks.filter (fun r => r.submission_id == sid)

/-- Mutate one submission's status field and commit. -/
def setStatus (db : DbState) (sid : Nat) (status : String) : DbState :=
  { db with
      submissions := db.submissions.map
        (fun p => if p.1 == sid then (p.1, { p.2 with status := status }) else p) }

/-- Outcome of `preprocess_submission`: the returned chunk count, or the
message of the exception that was raised. -/
inductive OrchResult where
  | ok (count : Nat)
  | err (msg : String)
  deriving DecidableEq, Repr

/-- Source `preprocess_submission`: resolve the submission, short-circuit if
already preprocessed, set status to preprocessing, dispatch on content type
(`_chunk_pdf` for pdf, `_chunk_docx` for docx, `_chunk_text` for
html/markdown/text), store the chunks with enumerated indices and set status
to preprocessed; an unsupported content type raises inside the try block, so
status becomes failed and the wrapped error is re-raised. -/
def preprocessSubmission (db : DbState) (sid : Nat)
    (chunk_tokens overlap_tokens : Int) : OrchResult × DbState :=
  match findSubmission db sid with
  | none => (.err "Submission not found", db)
  | some sub =>
    if sub.status = "preprocessed" then (.ok (subChunkRows db sid).length, db)
    else
      let db1 := setStatus db sid "preprocessing"
      let chunksData : Option (List Chunk) :=
        if sub.content_type = "pdf" then
          some (chunkPdf sub.file_pages chunk_tokens overlap_tokens)
        else if sub.content_type = "docx" then
          some (tokenBasedChunker sub.file_text chunk_tokens overlap_tokens none)
        else if sub.content_type = "html" ∨ sub.content_type = "markdown" ∨
            sub.content_type = "text" then
          some (tokenBasedChunker sub.original_content chunk_tokens overlap_tokens none)
        else none
      match chunksData with
      | none => (.err "Preprocessing failed: Unsupported content type",
                 setStatus db1 sid "failed")
      | some cd =>
        let rows := cd.enum.map (fun p =>
          ({ submission_id := sid
             chunk_index := p.1
             text := p.2.text
             token_count := p.2.token_count
             meta := p.2.meta } : ChunkRow))
        let db2 := { db1 with chunks := db1.chunks ++ rows }
        let db3 := setStatus db2 sid "preprocessed"
        (.ok cd.length, db3)

/-- Source `delete_chunks`: delete the submission's chunk rows (recording
how many), reset the submission's status to uploaded when the submission
exists, and return the deleted count. -/
def deleteChunks (db : DbState) (sid : Nat) : Nat × DbState :=
  let count := (db.chunks.filter (fun r => r.submission_id == sid)).length
  let db1 := { db with chunks := db.chunks.filter (fun r => !(r.submission_id == sid)) }
  let db2 :=
    match findSubmission db1 sid with
    | some _ => setStatus db1 sid "uploaded"
    | none => db1
  (count, db2)

/-- Error taxonomy of the chunker named by the specification. The source of
`_token_based_chunker` contains no argument validation and no raise
statement, so no execution produces this error. -/
inductive ChunkerError where
  | invalidConfig
  deriving DecidableEq, Repr

/-- Exception-aware view of `_token_based_chunker`. The source body can only
return a list (it validates nothing and raises nothing), so this view is the
chunker's result wrapped in `ok` for every input, well-formed or not. -/
def tokenBasedChunkerRun (text : Text) (chunk_tokens overlap_tokens : Int)
    (page : Option Nat) : Except ChunkerError (List Chunk) :=
  Except.ok (tokenBasedChunker text chunk_tokens overlap_tokens page)

/-- One list is a whole-sentence tail (suffix) of another. -/
def isTailOf (s l : List Text) : Prop := ∃ t, t ++ s = l

/-- A chunk with its global index erased, used to compare per-page chunk
sequences independently of the global reindexing pass. -/
def dropIdx (ch : Chunk) : Chunk :=
  { ch with meta := { ch.meta with chunk_index := 0 } }

/-- Scenario S1 input text. -/
def s1Text : Text := txt "Hello world. This is a test."

/-- The single chunk S1 produces (with the character offsets the source
actually computes). -/
def s1ExpectedChunk : Chunk :=
  { text := s1Text
    token_count := 6
    meta :=
      { chunk_index := 0
        start_token := 0
        end_token := 6
        char_offset_start := 1
        char_offset_end := 29
        chunk_method := "token_based"
        page_number := none
        tokenizer_type := "whitespace"
        oversized_split := false
        sentence_count := some 2 } }

/-- Input whose middle chunk overshoots the budget: with
`chunk_tokens = 10`, `overlap_tokens = 9` the buffer is reseeded with a
6-token overlap tail and then an 8-token sentence is appended, so a 14-token
chunk is emitted without an oversized flag. -/
def c1Text : Text := txt "A b c d e f. B c d e f g h i. C."

/-- Input in which an oversized sentence (12 tokens) arrives while a 4-token
sentence sits in the buffer. -/
def c3Text : Text := txt "A b c d. E f g h i j k l m n o p"

/-- Well-formed content used with the malformed budget (3, 5). -/
def c2Text : Text := txt "Aa bb. Cc dd. Ee ff."

/-- Scenario S4 page list. -/
def s4Pages : List Text :=
  [(List.replicate 50 (txt "Page one. ")).flatten, txt "",
   (List.replicate 50 (txt "Page three. ")).flatten]

/-- Small page list (page 2 whitespace-only) used to witness the PDF paging
protocol. -/
def smallPages : List Text := [txt "Hi there.", txt "  ", txt "Yo."]

/-- What actually happens at a flush: the buffer is emitted as a chunk whose
token count is the running count N; the overlap tail is the unique maximal
whole-sentence suffix of the buffer whose token sum stays within
`overlap_tokens` (reverse greedy scan, stopping at the first sentence that
would exceed the budget); the tail, in original order, seeds the next buffer
(followed by the incoming sentence); and the global token offset advances by
exactly N minus the tail's token count. -/
def OverlapFlushSpec (chunk_tokens overlap_tokens : Int) (page : Option Nat)
    (st : ChunkerState) (sentence : Text) : Prop :=
  let p := computeOverlap overlap_tokens st.current_chunk_sentences
  stepSentence chunk_tokens overlap_tokens page st sentence =
    { chunks := st.chunks ++ [mkNormalChunk page st]
      current_chunk_sentences := p.1 ++ [sentence]
      current_token_count := p.2 + countTokens sentence
      global_token_offset :=
        st.global_token_offset + ((st.current_token_count : Int) - (p.2 : Int))
      char_offset := st.char_offset + (sentence.length : Int) + 1 } ∧
  (mkNormalChunk page st).token_count = st.current_token_count ∧
  isTailOf p.1 st.current_chunk_sentences ∧
  p.2 = sumTokens p.1 ∧
  (0 ≤ overlap_tokens → (p.2 : Int) ≤ overlap_tokens) ∧
  (∀ s, isTailOf s st.current_chunk_sentences → s.length > p.1.length →
    (sumTokens s : Int) > overlap_tokens)

/-- What actually happens when a sentence with more than `chunk_tokens`
tokens arrives: a nonempty buffer first goes through the ordinary flush test
(which emits it and reseeds the buffer with its overlap tail), then the
reseeded tail is flushed again as an additional chunk with no overlap;
the word-level subchunks are appended with consecutive indices, all flagged
`oversized_split = true`; the global token offset advances past them by the
full sum of their token counts; and the buffer is left empty with a zero
count, so the next normal chunk starts immediately after them with no
overlap. -/
def OversizedStepSpec (chunk_tokens overlap_tokens : Int) (page : Option Nat)
    (st : ChunkerState) (sentence : Text) : Prop :=
  let st1 :=
    if st.current_chunk_sentences ≠ [] then flushWithOverlap overlap_tokens page st else st
  let st2 := if st1.current_chunk_sentences ≠ [] then flushHard page st1 else st1
  let subs := splitOversizedSentence chunk_tokens overlap_tokens
    st2.global_token_offset st2.char_offset page sentence
  stepSentence chunk_tokens overlap_tokens page st sentence =
    { st2 with
        chunks := appendReindexed st2.chunks subs
        global_token_offset := st2.global_token_offset + (sumCounts subs : Int)
        char_offset := st2.char_offset + (sentence.length : Int) + 1 } ∧
  (stepSentence chunk_tokens overlap_tokens page st sentence).current_chunk_sentences = [] ∧
  (stepSentence chunk_tokens overlap_tokens page st sentence).current_token_count = 0 ∧
  (∀ ch ∈ subs, ch.meta.oversized_split = true)

/-- The idempotent short-circuit of `preprocess_submission` on an already
preprocessed submission: the existing chunk count is returned, the database
is untouched, and a second identical call returns the same count and leaves
the stored chunk rows unaltered. -/
def PreprocessedShortCircuit (db : DbState) (sid : Nat)
    (chunk_tokens overlap_tokens : Int) : Prop :=
  preprocessSubmission db sid chunk_tokens overlap_tokens =
    (.ok (subChunkRows db sid).length, db) ∧
  ∀ n db2, preprocessSubmission db sid chunk_tokens overlap_tokens = (.ok n, db2) →
    preprocessSubmission db2 sid chunk_tokens overlap_tokens = (.ok n, db2) ∧
    subChunkRows db2 sid = subChunkRows db sid

/-- Behavior of `delete_chunks` for a submission id with no submission row:
the call completes normally, returns the number of chunk rows with that id
(zero when there are none), removes exactly those rows, and writes no status
(the submission table is untouched). -/
def DeleteMissingSpec (db : DbState) (sid : Nat) : Prop :=
  (deleteChunks db sid).1 = (subChunkRows db sid).length ∧
  (deleteChunks db sid).2.submissions = db.submissions ∧
  (deleteChunks db sid).2.chunks =
    db.chunks.filter (fun r => !(r.submission_id == sid))

/-- Buffer state used to witness the overlap-tail construction: two
sentences of 2 tokens each with budgets (5, 2), so the flush keeps exactly
the last sentence as the overlap tail. -/
def c4State : ChunkerState :=
  { chunks := []
    current_chunk_sentences := [txt "Aa bb.", txt "Cc dd."]
    current_token_count := 4
    global_token_offset := 0
    char_offset := 14 }

/-- Buffer state used to witness the oversized-sentence branch: one 4-token
sentence pending, budgets (10, 5), so the overlap tail is the whole buffer
and is re-emitted as a duplicate chunk before the subchunks. -/
def c3State : ChunkerState :=
  { chunks := []
    current_chunk_sentences := [txt "A b c d."]
    current_token_count := 4
    global_token_offset := 0
    char_offset := 9 }

/-- The first chunk `_chunk_pdf` produces on the small three-page input. -/
def smallPagesChunk : Chunk :=
  { text := txt "Hi there."
    token_count := 2
    meta :=
      { chunk_index := 0
        start_token := 0
        end_token := 2
        char_offset_start := 1
        char_offset_end := 10
        chunk_method := "token_based"
        page_number := some 1
        tokenizer_type := "whitespace"
        oversized_split := false
        sentence_count := some 1 } }

/-- A metadata value for demonstration chunk rows in orchestrator states. -/
def demoMeta : ChunkMeta :=
  { chunk_index := 0
    start_token := 0
    end_token := 1
    char_offset_start := 1
    char_offset_end := 7
    chunk_method := "token_based"
    page_number := none
    tokenizer_type := "whitespace"
    oversized_split := false
    sentence_count := some 1 }

/-- A submission already in the preprocessed state, with one stored chunk
row, used to witness the idempotent short-circuit. -/
def demoSub : SubmissionRec :=
  { status := "preprocessed"
    content_type := "text"
    original_content := txt "Hello."
    file_text := []
    file_pages := [] }

/-- Database holding `demoSub` under id 1 together with its chunk row. -/
def demoDb : DbState :=
  { submissions := [(1, demoSub)]
    chunks := [{ submission_id := 1, chunk_index := 0, text := txt "Hello."
                 token_count := 1, meta := demoMeta }] }

/-- Database with no submission rows but one orphan chunk row under id 7,
used to witness `delete_chunks` on a missing submission. -/
def orphanDb : DbState :=
  { submissions := []
    chunks := [{ submission_id := 7, chunk_index := 0, text := txt "Hello."
                 token_count := 1, meta := demoMeta }] }

/-- C9 counterexample: on the S1 input the source produces exactly one chunk
whose `char_offset_start` is 1, not 0 as the claim states (the character
cursor has advanced by `len + 1` for each of the two sentences, so
`char_offset - len(joined_text)` is 29 - 28 = 1). -/
theorem s1_char_offset_counterexample :
    (tokenBasedChunker s1Text 100 10 none).map (fun ch => ch.meta.char_offset_start) = [1] ∧
    (tokenBasedChunker s1Text 100 10 none).map (fun ch => ch.meta.char_offset_start) ≠ [0] := by
  decide

/-- Claim C9 (corrected): on input "Hello world. This is a test." with
budgets (100, 10) the chunker produces exactly one chunk with index 0, a
token count equal to that of the whole input, a sentence count of 2, and
`char_offset_start = 1`. -/
theorem s1_short_text :
    (tokenBasedChunker s1Text 100 10 none).length = 1 ∧
    (tokenBasedChunker s1Text 100 10 none).map
      (fun ch => (ch.meta.chunk_index, ch.token_count, ch.meta.sentence_count,
                  ch.meta.char_offset_start)) =
      [(0, countTokens s1Text, some 2, 1)] := by
  decide

/-- C2 counterexample: with the malformed budget `chunk_tokens = 3`,
`overlap_tokens = 5` (so `overlap_tokens ≥ chunk_tokens`) the chunker does
not raise `InvalidConfig`; it returns normally with three chunks. -/
theorem no_invalid_config_counterexample :
    (3 : Int) ≤ 5 ∧
    (tokenBasedChunkerRun c2Text 3 5 none).isOk = true ∧
    (tokenBasedChunker c2Text 3 5 none).length = 3 := by
  decide

/-- Claim C2 (corrected): the chunker performs no validation of its budget
arguments at all. For every text and every pair of budgets, including
`overlap_tokens ≥ chunk_tokens` and negative values, it raises nothing and
returns a chunk list normally. -/
theorem chunker_never_raises (text : Text) (chunk_tokens overlap_tokens : Int)
    (page : Option Nat) :
    (tokenBasedChunkerRun text chunk_tokens overlap_tokens page).isOk = true ∧
    tokenBasedChunkerRun text chunk_tokens overlap_tokens page =
      Except.ok (tokenBasedChunker text chunk_tokens overlap_tokens page) :=
  ⟨rfl, rfl⟩

/-- C1 counterexample: with the well-formed budget `chunk_tokens = 10`,
`overlap_tokens = 9` the input `c1Text` produces a 14-token chunk that is
not flagged `oversized_split` (a 6-token overlap tail is reseeded into the
buffer and an 8-token sentence is appended on top of it without a re-check). -/
theorem token_budget_counterexample :
    (0 : Int) ≤ 9 ∧ (9 : Int) < 10 ∧
    (tokenBasedChunker c1Text 10 9 none).any
      (fun ch => decide (10 < ch.token_count) && !ch.meta.oversized_split) = true := by
  decide

/-- C3 counterexample: with budgets (10, 5) on `c3Text`, the oversized
branch does not flush the pending buffer as one hard-boundary chunk with no
overlap tail carried forward. The flush test first emits the buffer and
reseeds it with its overlap tail, and the oversized branch then emits that
tail again: the output contains the chunk "A b c d." twice, both spanning
tokens [0, 4) and neither flagged oversized. -/
theorem oversized_hard_boundary_counterexample :
    (tokenBasedChunker c3Text 10 5 none).map
      (fun ch => (ch.meta.start_token, ch.meta.end_token, ch.meta.oversized_split)) =
      [(0, 4, false), (0, 4, false), (4, 14, true), (14, 16, true)] ∧
    (tokenBasedChunker c3Text 10 5 none).map (fun ch => ch.text) =
      [txt "A b c d.", txt "A b c d.", txt "E f g h i j k l m n", txt "o p"] := by
  decide

/-- Claim C8 (confirmed): `preprocess_submission` on a submission whose
status is already "preprocessed" returns the stored chunk count and leaves
the database untouched, and a second identical call returns the same count
and leaves the stored chunk rows unaltered. -/
theorem preprocess_short_circuit (db : DbState) (sid : Nat)
    (chunk_tokens overlap_tokens : Int) (sub : SubmissionRec)
    (h : findSubmission db sid = some sub) (hs : sub.status = "preprocessed") :
    PreprocessedShortCircuit db sid chunk_tokens overlap_tokens := by
  have h1 : preprocessSubmission db sid chunk_tokens overlap_tokens =
      (.ok (subChunkRows db sid).length, db) := by
    unfold preprocessSubmission
    rw [h]
    simp [hs]
  refine ⟨h1, ?_⟩
  intro n db2 h2
  rw [h1] at h2
  have hdb : db = db2 := congrArg Prod.snd h2
  have hn : OrchResult.ok (subChunkRows db sid).length = OrchResult.ok n :=
    congrArg Prod.fst h2
  cases hdb
  cases hn
  exact ⟨h1, rfl⟩

/-- Witness for the idempotent short-circuit at a concrete database. -/
theorem preprocess_short_circuit_witness : PreprocessedShortCircuit demoDb 1 900 200 :=
  preprocess_short_circuit demoDb 1 900 200 demoSub (by decide) (by decide)

/-- Claim C10 (confirmed): `delete_chunks` on a submission id with no
submission row completes normally, returns the number of chunk rows carrying
that id (0 when there are none), deletes exactly those rows, and performs no
status write: the submission table is unchanged. -/
theorem delete_chunks_missing (db : DbState) (sid : Nat)
    (h : findSubmission db sid = none) : DeleteMissingSpec db sid := by
  have h2 : findSubmission
      { db with chunks := db.chunks.filter (fun r => !(r.submission_id == sid)) } sid =
      none := h
  unfold DeleteMissingSpec deleteChunks
  simp only [h2]
  simp [subChunkRows]

/-- Witness for `delete_chunks` on a missing submission: the orphan database
has no submission 7 but one chunk row under id 7. -/
theorem delete_chunks_missing_witness : DeleteMissingSpec orphanDb 7 :=
  delete_chunks_missing orphanDb 7 (by decide)

theorem sumTokens_nil : sumTokens [] = 0 := rfl

theorem sumTokens_cons (s : Text) (l : List Text) :
    sumTokens (s :: l) = countTokens s + sumTokens l := by
  simp [sumTokens]

theorem sumTokens_append (l1 l2 : List Text) :
    sumTokens (l1 ++ l2) = sumTokens l1 + sumTokens l2 := by
  simp [sumTokens]

theorem sumTokens_reverse (l : List Text) : sumTokens l.reverse = sumTokens l := by
  induction l with
  | nil => rfl
  | cons s l ih => simp [sumTokens_cons, List.reverse_cons, sumTokens_append, ih, sumTokens, List.sum_reverse]; omega

theorem sumCounts_nil : sumCounts [] = 0 := rfl

theorem sumCounts_append (l1 l2 : List Chunk) :
    sumCounts (l1 ++ l2) = sumCounts l1 + sumCounts l2 := by
  simp [sumCounts]

theorem isTailOf_rfl (l : List Text) : isTailOf l l := ⟨[], rfl⟩

theorem isTailOf_length_le {s l : List Text} (h : isTailOf s l) : s.length ≤ l.length := by
  obtain ⟨t, rfl⟩ := h
  simp

theorem sumTokens_le_of_tail {s l : List Text} (h : isTailOf s l) :
    sumTokens s ≤ sumTokens l := by
  obtain ⟨t, rfl⟩ := h
  rw [sumTokens_append]
  omega

theorem isTailOf_of_tails {s1 s2 l : List Text} (h1 : isTailOf s1 l) (h2 : isTailOf s2 l)
    (hlen : s1.length ≤ s2.length) : isTailOf s1 s2 := by
  obtain ⟨t1, ht1⟩ := h1
  obtain ⟨t2, ht2⟩ := h2
  have hl : t2.length ≤ t1.length := by
    have e1 := congrArg List.length ht1
    have e2 := congrArg List.length ht2
    simp at e1 e2
    omega
  have heq : t1 ++ s1 = t2 ++ s2 := ht1.trans ht2.symm
  have htake : t1.take t2.length = t2 := by
    have h3 : (t1 ++ s1).take t2.length = t1.take t2.length :=
      List.take_append_of_le_length hl
    have h4 : (t2 ++ s2).take t2.length = t2 := List.take_left t2 s2
    rw [heq] at h3
    rw [h4] at h3
    exact h3.symm
  refine ⟨t1.drop t2.length, ?_⟩
  have hsplit : t1 = t2 ++ t1.drop t2.length := by
    conv_lhs => rw [← List.take_append_drop t2.length t1]
    rw [htake]
  rw [hsplit] at heq
  rw [List.append_assoc] at heq
  exact List.append_cancel_left heq

/-- Full characterization of the overlap loop: it takes a maximal prefix `p`
of the reversed buffer (that is, a suffix of the buffer) whose running sums
stay within the budget, and if it stops early the next sentence would
exceed the budget. -/
theorem overlapGo_spec (o : Int) :
    ∀ (rl acc : List Text) (cnt : Nat),
      ∃ p rest, rl = p ++ rest ∧
        overlapGo o rl acc cnt = (p.reverse ++ acc, cnt + sumTokens p) ∧
        ((cnt : Int) ≤ max o 0 → ((cnt + sumTokens p : Nat) : Int) ≤ max o 0) ∧
        (∀ x xs, rest = x :: xs → ((cnt + sumTokens p + countTokens x : Nat) : Int) > o) := by
  intro rl
  induction rl with
  | nil =>
    intro acc cnt
    exact ⟨[], [], rfl, by simp [overlapGo, sumTokens_nil],
      by intro h; simpa [sumTokens_nil] using h, by simp⟩
  | cons s rest' ih =>
    intro acc cnt
    by_cases hc : ((cnt + countTokens s : Nat) : Int) ≤ o
    · obtain ⟨p', rest'', hsplit, heq, hbud, hstop⟩ := ih (s :: acc) (cnt + countTokens s)
      refine ⟨s :: p', rest'', by simp [hsplit], ?_, ?_, ?_⟩
      · rw [overlapGo, if_pos hc, heq]
        simp [sumTokens_cons]
        omega
      · intro _
        have : ((cnt + countTokens s : Nat) : Int) ≤ max o 0 :=
          le_trans hc (le_max_left o 0)
        have h2 := hbud this
        rw [sumTokens_cons]
        push_cast at h2 ⊢
        omega
      · intro x xs hx
        have h2 := hstop x xs hx
        rw [sumTokens_cons]
        push_cast at h2 ⊢
        omega
    · refine ⟨[], s :: rest', by simp, ?_, ?_, ?_⟩
      · rw [overlapGo, if_neg hc]
        simp [sumTokens_nil]
      · intro h
        simpa [sumTokens_nil] using h
      · intro x xs hx
        cases hx
        rw [sumTokens_nil]
        push_cast at hc ⊢
        omega

/-- The overlap tail is a whole-sentence suffix of the buffer; its recorded
count is its token sum; that sum respects the budget (when the budget is
nonnegative); and any strictly longer suffix would exceed the budget. -/
theorem computeOverlap_spec (o : Int) (l : List Text) :
    isTailOf (computeOverlap o l).1 l ∧
    (computeOverlap o l).2 = sumTokens (computeOverlap o l).1 ∧
    ((computeOverlap o l).2 : Int) ≤ max o 0 ∧
    (∀ s, isTailOf s l → s.length > (computeOverlap o l).1.length →
      (sumTokens s : Int) > o) := by
  obtain ⟨p, rest, hsplit, heq, hbud, hstop⟩ := overlapGo_spec o l.reverse [] 0
  have hres : computeOverlap o l = (p.reverse, sumTokens p) := by
    rw [computeOverlap, heq]
    simp
  have hl : l = rest.reverse ++ p.reverse := by
    have := congrArg List.reverse hsplit
    simpa using this
  have htail : isTailOf p.reverse l := ⟨rest.reverse, hl.symm⟩
  refine ⟨by rw [hres]; exact htail, ?_, ?_, ?_⟩
  · rw [hres, sumTokens_reverse]
  · rw [hres]
    have := hbud (by simp [le_max_iff])
    simpa using this
  · intro s hs hlen
    rw [hres] at hlen
    simp at hlen
    rcases rest with _ | ⟨x, xs⟩
    · exfalso
      have : l = p.reverse := by simpa using hl
      have h1 := isTailOf_length_le hs
      rw [this] at h1
      simp at h1
      omega
    · have hx := hstop x xs rfl
      simp [sumTokens_nil] at hx
      have hxt : isTailOf (x :: p.reverse) l := by
        refine ⟨xs.reverse, ?_⟩
        rw [hl]
        simp
    -- x :: p.reverse is a tail of s because s is a longer tail of l
      have hsub : isTailOf (x :: p.reverse) s := by
        apply isTailOf_of_tails hxt hs
        simp
        omega
      have hsum := sumTokens_le_of_tail hsub
      rw [sumTokens_cons, sumTokens_reverse] at hsum
      omega

theorem foldl_inv {α : Type} {σ : Type} {J : σ → Prop} {f : σ → α → σ}
    (hf : ∀ st a, J st → J (f st a)) :
    ∀ (l : List α) (st : σ), J st → J (l.foldl f st) := by
  intro l
  induction l with
  | nil => intro st h; exact h
  | cons a l ih => intro st h; exact ih (f st a) (hf st a h)

/-- Invariant of the word loop of `_split_oversized_sentence`, relative to
the starting token offset `base`. -/
structure OsInv (page : Option Nat) (base : Int) (st : OsState) : Prop where
  hoff : st.start_token_offset = base + (sumCounts st.chunks : Int)
  hall : ∀ ch ∈ st.chunks,
    ch.meta.oversized_split = true ∧ ch.meta.sentence_count = none ∧
    ch.meta.page_number = page ∧
    ch.meta.end_token = ch.meta.start_token + (ch.token_count : Int) ∧
    base ≤ ch.meta.start_token ∧
    ch.meta.start_token + (ch.token_count : Int) ≤ st.start_token_offset
  hmono : List.Pairwise (· ≤ ·) (st.chunks.map (fun ch => ch.meta.start_token))

theorem osFlush_inv {page : Option Nat} {base : Int} {st : OsState}
    (h : OsInv page base st) :
    OsInv page base
      { chunks := st.chunks ++ [mkOsChunk page st]
        current_words := [], current_tokens := 0
        start_token_offset := st.start_token_offset + (st.current_tokens : Int)
        local_char_offset := st.local_char_offset + ((joinSp st.current_words).length : Int) + 1 } := by
  obtain ⟨hoff, hall, hmono⟩ := h
  have hbase : base ≤ st.start_token_offset := by
    rw [hoff]; omega
  refine ⟨?_, ?_, ?_⟩
  · simp only [sumCounts_append, mkOsChunk]
    simp [sumCounts, hoff]
    omega
  · intro ch hm
    rcases List.mem_append.mp hm with hin | hnew
    · obtain ⟨f1, f2, f3, f4, f5, f6⟩ := hall ch hin
      exact ⟨f1, f2, f3, f4, f5, by simp; omega⟩
    · rcases List.mem_singleton.mp hnew with rfl
      refine ⟨rfl, rfl, rfl, rfl, ?_, ?_⟩
      · simpa [mkOsChunk] using hbase
      · simp [mkOsChunk]
  · simp only [List.map_append]
    rw [List.pairwise_append]
    refine ⟨hmono, by simp, ?_⟩
    intro a ha b hb
    simp at hb
    rcases List.mem_map.mp ha with ⟨ch, hin, rfl⟩
    obtain ⟨_, _, _, _, _, f6⟩ := hall ch hin
    have : (ch.token_count : Int) ≥ 0 := by positivity
    simp [mkOsChunk, hb]
    omega

theorem osStep_inv {c : Int} {page : Option Nat} {base : Int} (st : OsState) (w : Text)
    (h : OsInv page base st) : OsInv page base (osStep c page st w) := by
  unfold osStep
  by_cases hc : ((st.current_tokens + countTokens w : Nat) : Int) > c ∧ st.current_words ≠ []
  · simp only [if_pos hc]
    obtain ⟨hoff, hall, hmono⟩ := osFlush_inv h
    exact ⟨hoff, hall, hmono⟩
  · simp only [if_neg hc]
    obtain ⟨hoff, hall, hmono⟩ := h
    exact ⟨hoff, hall, hmono⟩

/-- Specification of `_split_oversized_sentence`: all subchunks are flagged
`oversized_split = true` with no sentence count, carry the page argument,
satisfy the token-range identity, start at or after `base`, fit before
`base` plus the total subchunk token sum, and have nondecreasing start
offsets. -/
theorem splitOversized_spec (c o base char : Int) (page : Option Nat) (s : Text) :
    (∀ ch ∈ splitOversizedSentence c o base char page s,
      ch.meta.oversized_split = true ∧ ch.meta.sentence_count = none ∧
      ch.meta.page_number = page ∧
      ch.meta.end_token = ch.meta.start_token + (ch.token_count : Int) ∧
      base ≤ ch.meta.start_token ∧
      ch.meta.start_token + (ch.token_count : Int) ≤
        base + (sumCounts (splitOversizedSentence c o base char page s) : Int)) ∧
    List.Pairwise (· ≤ ·)
      ((splitOversizedSentence c o base char page s).map (fun ch => ch.meta.start_token)) := by
  have h0 : OsInv page base
      { chunks := [], current_words := [], current_tokens := 0
        start_token_offset := base, local_char_offset := char } :=
    ⟨by simp [sumCounts_nil], by simp, by simp⟩
  have hfin := foldl_inv (J := OsInv page base) (f := osStep c page)
    (fun st a => osStep_inv st a) (pySplit s) _ h0
  set stf := (pySplit s).foldl (osStep c page)
    { chunks := [], current_words := [], current_tokens := 0
      start_token_offset := base, local_char_offset := char } with hstf
  have hsplit : splitOversizedSentence c o base char page s =
      (if stf.current_words ≠ [] then stf.chunks ++ [mkOsChunk page stf] else stf.chunks) := rfl
  rw [hsplit]
  by_cases hw : stf.current_words ≠ []
  · simp only [if_pos hw]
    obtain ⟨hoff, hall, hmono⟩ := osFlush_inv hfin
    constructor
    · intro ch hm
      obtain ⟨f1, f2, f3, f4, f5, f6⟩ := hall ch hm
      refine ⟨f1, f2, f3, f4, f5, ?_⟩
      have : base + (sumCounts (stf.chunks ++ [mkOsChunk page stf]) : Int) =
          stf.start_token_offset + (stf.current_tokens : Int) := by
        rw [sumCounts_append, hfin.hoff]
        simp [sumCounts, mkOsChunk]
        omega
      simp only [this]
      simpa using f6
    · simpa using hmono
  · simp only [if_neg hw]
    constructor
    · intro ch hm
      obtain ⟨f1, f2, f3, f4, f5, f6⟩ := hfin.hall ch hm
      exact ⟨f1, f2, f3, f4, f5, by rw [← hfin.hoff]; exact f6⟩
    · exact hfin.hmono

theorem reindexFrom_map {β : Type} (f : Chunk → β)
    (hf : ∀ ch n, f { ch with meta := { ch.meta with chunk_index := (n : Int) } } = f ch) :
    ∀ (n : Nat) (cs : List Chunk), (reindexFrom n cs).map f = cs.map f := by
  intro n cs
  induction cs generalizing n with
  | nil => rfl
  | cons ch cs ih => simp [reindexFrom, hf, ih]

theorem reindexFrom_forall {P : Chunk → Prop}
    (hP : ∀ ch n, P ch → P { ch with meta := { ch.meta with chunk_index := (n : Int) } }) :
    ∀ (n : Nat) (cs : List Chunk), (∀ ch ∈ cs, P ch) → ∀ ch ∈ reindexFrom n cs, P ch := by
  intro n cs
  induction cs generalizing n with
  | nil => intro _ ch hm; cases hm
  | cons c0 cs ih =>
    intro h ch hm
    rcases List.mem_cons.mp hm with rfl | hm2
    · exact hP c0 n (h c0 (List.mem_cons_self c0 cs))
    · exact ih (n + 1) (fun x hx => h x (List.mem_cons_of_mem c0 hx)) ch hm2

theorem appendReindexed_cons (chunks : List Chunk) (ch : Chunk) (cs : List Chunk) :
    appendReindexed chunks (ch :: cs) =
      appendReindexed
        (chunks ++ [{ ch with meta := { ch.meta with chunk_index := (chunks.length : Int) } }])
        cs := by
  simp [appendReindexed, reindexFrom, List.append_assoc]

theorem map_idx_appendReindexed :
    ∀ (cs chunks : List Chunk),
      chunks.map (fun x => x.meta.chunk_index) =
        (List.range chunks.length).map Int.ofNat →
      (appendReindexed chunks cs).map (fun x => x.meta.chunk_index) =
        (List.range (chunks.length + cs.length)).map Int.ofNat := by
  intro cs
  induction cs with
  | nil => intro chunks h; simpa [appendReindexed, reindexFrom] using h
  | cons c0 cs ih =>
    intro chunks h
    rw [appendReindexed_cons]
    set c1 : Chunk :=
      { c0 with meta := { c0.meta with chunk_index := (chunks.length : Int) } } with hc1
    have hlen : (chunks ++ [c1]).length = chunks.length + 1 := by simp
    have h2 : (chunks ++ [c1]).map (fun x => x.meta.chunk_index) =
        (List.range ((chunks ++ [c1]).length)).map Int.ofNat := by
      rw [hlen]
      simp [List.range_succ, h, hc1, Int.ofNat_eq_coe]
    have h3 := ih _ h2
    rw [h3, hlen]
    have h4 : chunks.length + 1 + cs.length = chunks.length + (cs.length + 1) := by omega
    rw [h4]
    simp

theorem reindexFrom_length (n : Nat) (cs : List Chunk) :
    (reindexFrom n cs).length = cs.length := by
  induction cs generalizing n with
  | nil => rfl
  | cons c0 cs ih => simp [reindexFrom, ih]

/-- Invariant of the sentence loop of `_token_based_chunker`: the running
count is the token sum of the buffer and stays within
`max chunk_tokens 0 + max overlap_tokens 0`; every emitted chunk respects
that bound or is flagged oversized, satisfies the token-range identity,
carries the page argument, and starts at or before the current global
offset; chunk indices are dense from 0 and start offsets nondecreasing. -/
structure ChunkInv (c o : Int) (page : Option Nat) (st : ChunkerState) : Prop where
  hsum : st.current_token_count = sumTokens st.current_chunk_sentences
  hbound : (st.current_token_count : Int) ≤ max c 0 + max o 0
  hall : ∀ ch ∈ st.chunks,
    ((ch.token_count : Int) ≤ max c 0 + max o 0 ∨ ch.meta.oversized_split = true) ∧
    ch.meta.end_token = ch.meta.start_token + (ch.token_count : Int) ∧
    ch.meta.page_number = page ∧
    ch.meta.start_token ≤ st.global_token_offset
  hidx : st.chunks.map (fun x => x.meta.chunk_index) =
    (List.range st.chunks.length).map Int.ofNat
  hmono : List.Pairwise (· ≤ ·) (st.chunks.map (fun x => x.meta.start_token))

theorem finalizeBuffer_inv {c o : Int} {page : Option Nat} {st : ChunkerState}
    (h : ChunkInv c o page st) : ChunkInv c o page (finalizeBuffer page st) := by
  obtain ⟨hsum, hbound, hall, hidx, hmono⟩ := h
  refine ⟨hsum, hbound, ?_, ?_, ?_⟩
  · intro ch hm
    rcases List.mem_append.mp hm with hin | hnew
    · exact hall ch hin
    · rcases List.mem_singleton.mp hnew with rfl
      exact ⟨Or.inl hbound, rfl, rfl, le_refl _⟩
  · show (st.chunks ++ [mkNormalChunk page st]).map (fun x => x.meta.chunk_index) =
      (List.range (st.chunks ++ [mkNormalChunk page st]).length).map Int.ofNat
    simp [List.range_succ, hidx, mkNormalChunk, Int.ofNat_eq_coe]
  · show List.Pairwise (· ≤ ·)
      ((st.chunks ++ [mkNormalChunk page st]).map (fun x => x.meta.start_token))
    simp only [List.map_append]
    rw [List.pairwise_append]
    refine ⟨hmono, by simp, ?_⟩
    intro a ha b hb
    simp [mkNormalChunk] at hb
    rcases List.mem_map.mp ha with ⟨ch, hin, rfl⟩
    rw [hb]
    exact (hall ch hin).2.2.2

theorem flushWithOverlap_inv {c o : Int} {page : Option Nat} {st : ChunkerState}
    (h : ChunkInv c o page st) : ChunkInv c o page (flushWithOverlap o page st) := by
  obtain ⟨hcs, hsum2, hcb, _⟩ := computeOverlap_spec o st.current_chunk_sentences
  have hple : ((computeOverlap o st.current_chunk_sentences).2 : Int) ≤
      (st.current_token_count : Int) := by
    have h1 := sumTokens_le_of_tail hcs
    rw [h.hsum]
    omega
  have hfb := finalizeBuffer_inv h
  obtain ⟨hsum, hbound, hall, hidx, hmono⟩ := hfb
  have hco : (0 : Int) ≤ max c 0 := le_max_right c 0
  refine ⟨hsum2, ?_, ?_, hidx, hmono⟩
  · show (((computeOverlap o st.current_chunk_sentences).2 : Nat) : Int) ≤ max c 0 + max o 0
    omega
  · intro ch hm
    obtain ⟨f1, f2, f3, f4⟩ := hall ch hm
    refine ⟨f1, f2, f3, ?_⟩
    show ch.meta.start_token ≤ st.global_token_offset +
      ((st.current_token_count : Int) - ((computeOverlap o st.current_chunk_sentences).2 : Int))
    have : ch.meta.start_token ≤ st.global_token_offset := f4
    omega

theorem flushHard_inv {c o : Int} {page : Option Nat} {st : ChunkerState}
    (h : ChunkInv c o page st) : ChunkInv c o page (flushHard page st) := by
  have hfb := finalizeBuffer_inv h
  obtain ⟨hsum, hbound, hall, hidx, hmono⟩ := hfb
  have hco : (0 : Int) ≤ max c 0 := le_max_right c 0
  have hoo : (0 : Int) ≤ max o 0 := le_max_right o 0
  refine ⟨rfl, ?_, ?_, hidx, hmono⟩
  · show (((0 : Nat)) : Int) ≤ max c 0 + max o 0
    omega
  · intro ch hm
    obtain ⟨f1, f2, f3, f4⟩ := hall ch hm
    refine ⟨f1, f2, f3, ?_⟩
    show ch.meta.start_token ≤ st.global_token_offset + (st.current_token_count : Int)
    have hc0 : (0 : Int) ≤ (st.current_token_count : Int) := by omega
    have : ch.meta.start_token ≤ st.global_token_offset := f4
    omega

theorem oversizedAppend_inv {c o : Int} {page : Option Nat} {st2 : ChunkerState} (s : Text)
    (h : ChunkInv c o page st2) :
    ChunkInv c o page
      { st2 with
          chunks := appendReindexed st2.chunks
            (splitOversizedSentence c o st2.global_token_offset st2.char_offset page s)
          global_token_offset := st2.global_token_offset +
            (sumCounts (splitOversizedSentence c o st2.global_token_offset
              st2.char_offset page s) : Int)
          char_offset := st2.char_offset + (s.length : Int) + 1 } := by
  obtain ⟨hsub, hsubmono⟩ :=
    splitOversized_spec c o st2.global_token_offset st2.char_offset page s
  obtain ⟨hsum, hbound, hall, hidx, hmono⟩ := h
  set subs := splitOversizedSentence c o st2.global_token_offset st2.char_offset page s
    with hsubs
  have hSnn : (0 : Int) ≤ (sumCounts subs : Int) := by omega
  have hPsub : ∀ ch ∈ subs,
      ((ch.token_count : Int) ≤ max c 0 + max o 0 ∨ ch.meta.oversized_split = true) ∧
      ch.meta.end_token = ch.meta.start_token + (ch.token_count : Int) ∧
      ch.meta.page_number = page ∧
      ch.meta.start_token ≤ st2.global_token_offset + (sumCounts subs : Int) := by
    intro ch hm
    obtain ⟨f1, f2, f3, f4, f5, f6⟩ := hsub ch hm
    have hc0 : (0 : Int) ≤ (ch.token_count : Int) := by omega
    exact ⟨Or.inr f1, f4, f3, by omega⟩
  refine ⟨hsum, hbound, ?_, ?_, ?_⟩
  · intro ch hm
    rcases List.mem_append.mp hm with hin | hre
    · obtain ⟨f1, f2, f3, f4⟩ := hall ch hin
      refine ⟨f1, f2, f3, ?_⟩
      show ch.meta.start_token ≤ st2.global_token_offset + (sumCounts subs : Int)
      omega
    · refine reindexFrom_forall ?_ st2.chunks.length subs hPsub ch hre
      intro x n hx
      exact hx
  · show (appendReindexed st2.chunks subs).map (fun x => x.meta.chunk_index) =
      (List.range (appendReindexed st2.chunks subs).length).map Int.ofNat
    rw [map_idx_appendReindexed subs st2.chunks hidx]
    have : (appendReindexed st2.chunks subs).length = st2.chunks.length + subs.length := by
      simp [appendReindexed, reindexFrom_length]
    rw [this]
  · show List.Pairwise (· ≤ ·)
      ((appendReindexed st2.chunks subs).map (fun x => x.meta.start_token))
    have hmapeq : (appendReindexed st2.chunks subs).map (fun x => x.meta.start_token) =
        st2.chunks.map (fun x => x.meta.start_token) ++
          subs.map (fun x => x.meta.start_token) := by
      simp [appendReindexed, reindexFrom_map (fun x => x.meta.start_token) (fun ch n => rfl)]
    rw [hmapeq, List.pairwise_append]
    refine ⟨hmono, hsubmono, ?_⟩
    intro a ha b hb
    rcases List.mem_map.mp ha with ⟨ch, hin, rfl⟩
    rcases List.mem_map.mp hb with ⟨ch2, hin2, rfl⟩
    have h1 := (hall ch hin).2.2.2
    have h2 := (hsub ch2 hin2).2.2.2.2.1
    omega

theorem appendSentence_inv {c o : Int} {page : Option Nat} {st1 : ChunkerState} (s : Text)
    (h : ChunkInv c o page st1)
    (hbnd : (st1.current_token_count : Int) + (countTokens s : Int) ≤ max c 0 + max o 0) :
    ChunkInv c o page
      { st1 with
          current_chunk_sentences := st1.current_chunk_sentences ++ [s]
          current_token_count := st1.current_token_count + countTokens s
          char_offset := st1.char_offset + (s.length : Int) + 1 } := by
  obtain ⟨hsum, hbound, hall, hidx, hmono⟩ := h
  refine ⟨?_, by push_cast; omega, fun ch hm => hall ch hm, hidx, hmono⟩
  show st1.current_token_count + countTokens s =
    sumTokens (st1.current_chunk_sentences ++ [s])
  rw [sumTokens_append, hsum, sumTokens_cons, sumTokens_nil]
  omega

theorem stepSentence_inv {c o : Int} {page : Option Nat} (st : ChunkerState) (s : Text)
    (h : ChunkInv c o page st) : ChunkInv c o page (stepSentence c o page st s) := by
  have hco : (0 : Int) ≤ max c 0 := le_max_right c 0
  have hoo : (0 : Int) ≤ max o 0 := le_max_right o 0
  have happend : ∀ st1 : ChunkerState, ChunkInv c o page st1 →
      (st1.current_token_count : Int) + (countTokens s : Int) ≤ max c 0 + max o 0 →
      ChunkInv c o page
        { chunks := st1.chunks
          current_chunk_sentences := st1.current_chunk_sentences ++ [s]
          current_token_count := st1.current_token_count + countTokens s
          global_token_offset := st1.global_token_offset
          char_offset := st1.char_offset + (s.length : Int) + 1 } :=
    fun st1 h1 hb => appendSentence_inv s h1 hb
  have hover : ∀ st2 : ChunkerState, ChunkInv c o page st2 →
      ChunkInv c o page
        { chunks := appendReindexed st2.chunks
            (splitOversizedSentence c o st2.global_token_offset st2.char_offset page s)
          current_chunk_sentences := st2.current_chunk_sentences
          current_token_count := st2.current_token_count
          global_token_offset := st2.global_token_offset +
            (sumCounts (splitOversizedSentence c o st2.global_token_offset
              st2.char_offset page s) : Int)
          char_offset := st2.char_offset + (s.length : Int) + 1 } :=
    fun st2 h2 => oversizedAppend_inv s h2
  simp only [stepSentence]
  by_cases h1 : ((st.current_token_count + countTokens s : Nat) : Int) > c ∧
      st.current_chunk_sentences ≠ []
  · rw [if_pos h1]
    by_cases h2 : (countTokens s : Int) > c
    · rw [if_pos h2]
      by_cases h3 : (flushWithOverlap o page st).current_chunk_sentences ≠ []
      · rw [if_pos h3]
        exact hover _ (flushHard_inv (flushWithOverlap_inv h))
      · rw [if_neg h3]
        exact hover _ (flushWithOverlap_inv h)
    · rw [if_neg h2]
      refine happend _ (flushWithOverlap_inv h) ?_
      have hcur : (((computeOverlap o st.current_chunk_sentences).2 : Nat) : Int) ≤ max o 0 :=
        (computeOverlap_spec o st.current_chunk_sentences).2.2.1
      have hsle : (countTokens s : Int) ≤ c := by omega
      have hslem : (countTokens s : Int) ≤ max c 0 := le_trans hsle (le_max_left c 0)
      show (((computeOverlap o st.current_chunk_sentences).2 : Nat) : Int) +
        (countTokens s : Int) ≤ max c 0 + max o 0
      omega
  · rw [if_neg h1]
    by_cases h2 : (countTokens s : Int) > c
    · rw [if_pos h2]
      by_cases h3 : st.current_chunk_sentences ≠ []
      · rw [if_pos h3]
        exact hover _ (flushHard_inv h)
      · rw [if_neg h3]
        exact hover _ h
    · rw [if_neg h2]
      refine happend _ h ?_
      rcases not_and_or.mp h1 with h4 | h4
      · have h5 : ((st.current_token_count + countTokens s : Nat) : Int) ≤ c := by omega
        push_cast at h5
        have hcle : c ≤ max c 0 := le_max_left c 0
        omega
      · have hbe : st.current_chunk_sentences = [] := not_not.mp h4
        have hz : st.current_token_count = 0 := by
          rw [h.hsum, hbe, sumTokens_nil]
        rw [hz]
        have hsle : (countTokens s : Int) ≤ c := by omega
        have hslem : (countTokens s : Int) ≤ max c 0 := le_trans hsle (le_max_left c 0)
        omega

theorem initState_inv (c o : Int) (page : Option Nat) : ChunkInv c o page initState := by
  refine ⟨rfl, ?_, ?_, rfl, ?_⟩
  · have hco : (0 : Int) ≤ max c 0 := le_max_right c 0
    have hoo : (0 : Int) ≤ max o 0 := le_max_right o 0
    simp [initState]
    omega
  · intro ch hm
    cases hm
  · simp [initState]

/-- Master structural facts about every `_token_based_chunker` output: each
chunk respects the token budget `max c 0 + max o 0` or is flagged oversized,
satisfies `end_token = start_token + token_count`, and carries the page
argument; chunk indices are exactly `0, 1, …, N-1`; and start offsets are
nondecreasing along the output. -/
theorem tokenBasedChunker_inv (text : Text) (c o : Int) (page : Option Nat) :
    (∀ ch ∈ tokenBasedChunker text c o page,
      ((ch.token_count : Int) ≤ max c 0 + max o 0 ∨ ch.meta.oversized_split = true) ∧
      ch.meta.end_token = ch.meta.start_token + (ch.token_count : Int) ∧
      ch.meta.page_number = page) ∧
    (tokenBasedChunker text c o page).map (fun x => x.meta.chunk_index) =
      (List.range (tokenBasedChunker text c o page).length).map Int.ofNat ∧
    List.Pairwise (· ≤ ·)
      ((tokenBasedChunker text c o page).map (fun x => x.meta.start_token)) := by
  by_cases he : (pyStrip text).isEmpty
  · have : tokenBasedChunker text c o page = [] := by
      unfold tokenBasedChunker
      rw [if_pos he]
    rw [this]
    exact ⟨fun ch hm => absurd hm (List.not_mem_nil ch), rfl, List.Pairwise.nil⟩
  · by_cases hs : (segmentSentences text).isEmpty
    · have : tokenBasedChunker text c o page = [] := by
        unfold tokenBasedChunker
        rw [if_neg he, if_pos hs]
      rw [this]
      exact ⟨fun ch hm => absurd hm (List.not_mem_nil ch), rfl, List.Pairwise.nil⟩
    · have hfin : ChunkInv c o page
          ((segmentSentences text).foldl (stepSentence c o page) initState) :=
        foldl_inv (fun st a => stepSentence_inv st a) (segmentSentences text) initState
          (initState_inv c o page)
      set stf := (segmentSentences text).foldl (stepSentence c o page) initState with hstf
      by_cases hb : stf.current_chunk_sentences ≠ []
      · have hres : tokenBasedChunker text c o page = (finalizeBuffer page stf).chunks := by
          unfold tokenBasedChunker
          rw [if_neg he, if_neg hs, ← hstf, if_pos hb]
        obtain ⟨_, _, hall, hidx, hmono⟩ := finalizeBuffer_inv hfin
        rw [hres]
        exact ⟨fun ch hm => ⟨(hall ch hm).1, (hall ch hm).2.1, (hall ch hm).2.2.1⟩,
          hidx, hmono⟩
      · have hres : tokenBasedChunker text c o page = stf.chunks := by
          unfold tokenBasedChunker
          rw [if_neg he, if_neg hs, ← hstf, if_neg hb]
        obtain ⟨_, _, hall, hidx, hmono⟩ := hfin
        rw [hres]
        exact ⟨fun ch hm => ⟨(hall ch hm).1, (hall ch hm).2.1, (hall ch hm).2.2.1⟩,
          hidx, hmono⟩

/-- Claim C1 (corrected): on well-formed budgets every chunk satisfies
`token_count ≤ chunk_tokens + overlap_tokens` (not `≤ chunk_tokens` as the
claim states) or else is flagged `oversized_split = true`. The weaker bound
is tight because a flush reseeds the buffer with an overlap tail of up to
`overlap_tokens` tokens and then appends a sentence of up to `chunk_tokens`
tokens without re-checking the budget. -/
theorem chunk_token_budget (text : Text) (chunk_tokens overlap_tokens : Int)
    (page : Option Nat) (h0 : 0 ≤ overlap_tokens) (h1 : overlap_tokens < chunk_tokens) :
    ∀ ch ∈ tokenBasedChunker text chunk_tokens overlap_tokens page,
      (ch.token_count : Int) ≤ chunk_tokens + overlap_tokens ∨
      ch.meta.oversized_split = true := by
  intro ch hm
  have hc : max chunk_tokens 0 = chunk_tokens := max_eq_left (by omega)
  have ho : max overlap_tokens 0 = overlap_tokens := max_eq_left h0
  have h := ((tokenBasedChunker_inv text chunk_tokens overlap_tokens page).1 ch hm).1
  rw [hc, ho] at h
  exact h

/-- Witness for the corrected token budget at the S1 input. -/
theorem chunk_token_budget_witness :
    (s1ExpectedChunk.token_count : Int) ≤ 100 + 10 ∨
    s1ExpectedChunk.meta.oversized_split = true :=
  chunk_token_budget s1Text 100 10 none (by decide) (by decide) s1ExpectedChunk (by decide)

/-- Claim C5 (confirmed): for every chunk produced by the chunker, normal or
oversized-split, `end_token - start_token = token_count`. -/
theorem chunk_token_range (text : Text) (chunk_tokens overlap_tokens : Int)
    (page : Option Nat) :
    ∀ ch ∈ tokenBasedChunker text chunk_tokens overlap_tokens page,
      ch.meta.end_token - ch.meta.start_token = (ch.token_count : Int) := by
  intro ch hm
  have h := ((tokenBasedChunker_inv text chunk_tokens overlap_tokens page).1 ch hm).2.1
  omega

/-- Witness for the token-range identity at the S1 input. -/
theorem chunk_token_range_witness :
    s1ExpectedChunk.meta.end_token - s1ExpectedChunk.meta.start_token =
      (s1ExpectedChunk.token_count : Int) :=
  chunk_token_range s1Text 100 10 none s1ExpectedChunk (by decide)

/-- Claim C6 (confirmed): within one chunker run, chunk indices are dense
starting at 0 (`chunk_index` of the i-th chunk is i, hence adjacent indices
differ by one) and start offsets are nondecreasing
(`start_token[i+1] ≥ start_token[i]`). -/
theorem chunk_run_monotone_dense (text : Text) (chunk_tokens overlap_tokens : Int)
    (page : Option Nat) :
    (∀ i, (h : i < (tokenBasedChunker text chunk_tokens overlap_tokens page).length) →
      ((tokenBasedChunker text chunk_tokens overlap_tokens page).get
        ⟨i, h⟩).meta.chunk_index = (i : Int)) ∧
    (∀ i, (h : i + 1 < (tokenBasedChunker text chunk_tokens overlap_tokens page).length) →
      ((tokenBasedChunker text chunk_tokens overlap_tokens page).get
        ⟨i, Nat.lt_of_succ_lt h⟩).meta.start_token ≤
      ((tokenBasedChunker text chunk_tokens overlap_tokens page).get
        ⟨i + 1, h⟩).meta.start_token) := by
  obtain ⟨_, hidx, hmono⟩ := tokenBasedChunker_inv text chunk_tokens overlap_tokens page
  constructor
  · intro i h
    have h2 := congrArg (fun l => l.get? i) hidx
    simp only [List.get?_map] at h2
    rw [List.get?_eq_get h] at h2
    rw [List.get?_range (by simpa using h)] at h2
    simp at h2
    simpa using h2
  · intro i h
    rw [List.pairwise_iff_get] at hmono
    have h2 := hmono ⟨i, by simpa using Nat.lt_of_succ_lt h⟩ ⟨i + 1, by simpa using h⟩
      (by simp [Fin.mk_lt_mk])
    simp only [List.get_map] at h2
    exact h2

/-- Witness for index density and start monotonicity on a two-chunk run. -/
theorem chunk_run_monotone_dense_witness :
    ((tokenBasedChunker c2Text 3 2 none).get ⟨0, by decide⟩).meta.chunk_index = ((0 : Nat) : Int) ∧
    ((tokenBasedChunker c2Text 3 2 none).get ⟨0, by decide⟩).meta.start_token ≤
      ((tokenBasedChunker c2Text 3 2 none).get ⟨1, by decide⟩).meta.start_token :=
  ⟨(chunk_run_monotone_dense c2Text 3 2 none).1 0 (by decide),
   (chunk_run_monotone_dense c2Text 3 2 none).2 0 (by decide)⟩

/-- Claim C4 (confirmed): when the flush test fires on a non-oversized
sentence, the buffer is emitted as a chunk of N = current_token_count
tokens; the overlap tail is the maximal whole-sentence suffix of the buffer
within the overlap budget (reverse greedy scan, no partial inclusion); the
tail in original order seeds the next buffer, followed by the incoming
sentence; and the global token offset advances by exactly N minus the
realized overlap. -/
theorem overlap_tail_flush (chunk_tokens overlap_tokens : Int) (page : Option Nat)
    (st : ChunkerState) (sentence : Text)
    (hflush : ((st.current_token_count + countTokens sentence : Nat) : Int) > chunk_tokens)
    (hne : st.current_chunk_sentences ≠ [])
    (hfits : (countTokens sentence : Int) ≤ chunk_tokens) :
    OverlapFlushSpec chunk_tokens overlap_tokens page st sentence := by
  obtain ⟨ht, hs, hb, hmax⟩ := computeOverlap_spec overlap_tokens st.current_chunk_sentences
  have heq : stepSentence chunk_tokens overlap_tokens page st sentence =
      { chunks := st.chunks ++ [mkNormalChunk page st]
        current_chunk_sentences :=
          (computeOverlap overlap_tokens st.current_chunk_sentences).1 ++ [sentence]
        current_token_count :=
          (computeOverlap overlap_tokens st.current_chunk_sentences).2 + countTokens sentence
        global_token_offset := st.global_token_offset + ((st.current_token_count : Int) -
          ((computeOverlap overlap_tokens st.current_chunk_sentences).2 : Int))
        char_offset := st.char_offset + (sentence.length : Int) + 1 } := by
    have hcond : ((st.current_token_count + countTokens sentence : Nat) : Int) > chunk_tokens ∧
        st.current_chunk_sentences ≠ [] := ⟨hflush, hne⟩
    simp only [stepSentence]
    rw [if_neg (not_lt.mpr hfits), if_pos hcond]
    rfl
  unfold OverlapFlushSpec
  refine ⟨heq, rfl, ht, hs, ?_, hmax⟩
  intro h0
  rw [max_eq_left h0] at hb
  exact hb


/-- Witness for the overlap-tail construction at a concrete flush. -/
theorem overlap_tail_flush_witness : OverlapFlushSpec 5 2 none c4State (txt "Ee ff gg.") :=
  overlap_tail_flush 5 2 none c4State (txt "Ee ff gg.") (by decide) (by decide) (by decide)

/-- Claim C3 (corrected): what the chunker does when an oversized sentence
arrives. The pending buffer is not flushed once with a hard boundary, as the
claim states: it first goes through the ordinary flush test, which emits it
and reseeds the buffer with its overlap tail, and the oversized branch then
emits that tail again as an additional chunk. The remaining conjuncts of
the claim hold: the word-level subchunks are all flagged
`oversized_split = true`, the global offset advances by the full sum of
their token counts, and the next normal chunk starts after them with no
overlap (empty buffer, zero count). The hypothesis ties the running count
to the buffer, as holds in every reachable loop state. -/
theorem oversized_step (chunk_tokens overlap_tokens : Int) (page : Option Nat)
    (st : ChunkerState) (sentence : Text)
    (hbig : (countTokens sentence : Int) > chunk_tokens)
    (hsum : st.current_token_count = sumTokens st.current_chunk_sentences) :
    OversizedStepSpec chunk_tokens overlap_tokens page st sentence := by
  have hcond : ((st.current_token_count + countTokens sentence : Nat) : Int) > chunk_tokens := by
    push_cast
    omega
  have hiff : (((st.current_token_count + countTokens sentence : Nat) : Int) > chunk_tokens ∧
      st.current_chunk_sentences ≠ []) ↔ st.current_chunk_sentences ≠ [] :=
    ⟨fun h => h.2, fun h => ⟨hcond, h⟩⟩
  have hstepeq : stepSentence chunk_tokens overlap_tokens page st sentence =
      (let st1 := if st.current_chunk_sentences ≠ [] then
          flushWithOverlap overlap_tokens page st else st
       let st2 := if st1.current_chunk_sentences ≠ [] then flushHard page st1 else st1
       let subs := splitOversizedSentence chunk_tokens overlap_tokens
         st2.global_token_offset st2.char_offset page sentence
       { st2 with
           chunks := appendReindexed st2.chunks subs
           global_token_offset := st2.global_token_offset + (sumCounts subs : Int)
           char_offset := st2.char_offset + (sentence.length : Int) + 1 }) := by
    simp only [stepSentence]
    rw [if_congr hiff rfl rfl, if_pos hbig]
  unfold OversizedStepSpec
  refine ⟨hstepeq, ?_, ?_, ?_⟩
  · rw [hstepeq]
    by_cases hb : st.current_chunk_sentences ≠ []
    · simp only [if_pos hb]
      by_cases h3 : (flushWithOverlap overlap_tokens page st).current_chunk_sentences ≠ []
      · simp only [if_pos h3]
        rfl
      · simp only [if_neg h3]
        exact not_not.mp h3
    · simp only [if_neg hb]
      exact not_not.mp hb
  · rw [hstepeq]
    by_cases hb : st.current_chunk_sentences ≠ []
    · simp only [if_pos hb]
      by_cases h3 : (flushWithOverlap overlap_tokens page st).current_chunk_sentences ≠ []
      · simp only [if_pos h3]
        rfl
      · simp only [if_neg h3]
        have h4 : (computeOverlap overlap_tokens st.current_chunk_sentences).1 = [] :=
          not_not.mp h3
        show (computeOverlap overlap_tokens st.current_chunk_sentences).2 = 0
        rw [(computeOverlap_spec overlap_tokens st.current_chunk_sentences).2.1, h4,
          sumTokens_nil]
    · simp only [if_neg hb]
      show st.current_token_count = 0
      rw [hsum, not_not.mp hb, sumTokens_nil]
  · intro ch hm
    exact ((splitOversized_spec chunk_tokens overlap_tokens _ _ page sentence).1 ch hm).1


/-- Witness for the oversized-sentence step at a concrete state. -/
theorem oversized_step_witness :
    OversizedStepSpec 10 5 none c3State (txt "E f g h i j k l m n o p") :=
  oversized_step 10 5 none c3State (txt "E f g h i j k l m n o p")
    (by decide) (by decide)

/-- Invariant induction along the per-page loop of `_chunk_pdf`: the running
counter equals the number of accumulated chunks, global indices stay dense,
the accumulated chunks modulo index are the concatenation of the standalone
per-page chunker outputs over the non-whitespace pages, and every chunk
comes from the accumulator or carries the page number of some non-whitespace
page of the remaining list. -/
theorem chunkPdfGo_spec (c o : Int) :
    ∀ (pgs : List (Nat × Text)) (acc : List Chunk),
      acc.map (fun x => x.meta.chunk_index) = (List.range acc.length).map Int.ofNat →
      (chunkPdfGo c o pgs (acc, acc.length)).2 =
        (chunkPdfGo c o pgs (acc, acc.length)).1.length ∧
      (chunkPdfGo c o pgs (acc, acc.length)).1.map (fun x => x.meta.chunk_index) =
        (List.range (chunkPdfGo c o pgs (acc, acc.length)).1.length).map Int.ofNat ∧
      (chunkPdfGo c o pgs (acc, acc.length)).1.map dropIdx =
        acc.map dropIdx ++
          ((pgs.filter (fun pg => !(pyStrip pg.2).isEmpty)).map
            (fun pg => (tokenBasedChunker pg.2 c o (some pg.1)).map dropIdx)).flatten ∧
      ∀ ch ∈ (chunkPdfGo c o pgs (acc, acc.length)).1,
        ch ∈ acc ∨ ∃ p t, (p, t) ∈ pgs ∧ (pyStrip t).isEmpty = false ∧
          ch.meta.page_number = some p := by
  intro pgs
  induction pgs with
  | nil =>
    intro acc hidx
    exact ⟨rfl, hidx, by simp [chunkPdfGo], fun ch hm => Or.inl hm⟩
  | cons pg pgs ih =>
    intro acc hidx
    by_cases hpe : (pyStrip pg.2).isEmpty = true
    · have hone : chunkPdfGo c o (pg :: pgs) (acc, acc.length) =
          chunkPdfGo c o pgs (acc, acc.length) := by
        simp only [chunkPdfGo, List.foldl_cons, if_pos hpe]
      rw [hone]
      obtain ⟨g1, g2, g3, g4⟩ := ih acc hidx
      refine ⟨g1, g2, ?_, ?_⟩
      · rw [g3]
        have hfil : (pg :: pgs).filter (fun pg => !(pyStrip pg.2).isEmpty) =
            pgs.filter (fun pg => !(pyStrip pg.2).isEmpty) := by
          simp [List.filter_cons, hpe]
        rw [hfil]
      · intro ch hm
        rcases g4 ch hm with h | ⟨p, t, hmem, hf, hp⟩
        · exact Or.inl h
        · exact Or.inr ⟨p, t, List.mem_cons_of_mem pg hmem, hf, hp⟩
    · have hpf : (pyStrip pg.2).isEmpty = false := by
        cases h : (pyStrip pg.2).isEmpty
        · rfl
        · exact absurd h hpe
      set pcs := tokenBasedChunker pg.2 c o (some pg.1) with hpcs
      have hlen : (acc ++ reindexFrom acc.length pcs).length = acc.length + pcs.length := by
        simp [reindexFrom_length]
      have hone : chunkPdfGo c o (pg :: pgs) (acc, acc.length) =
          chunkPdfGo c o pgs (acc ++ reindexFrom acc.length pcs,
            (acc ++ reindexFrom acc.length pcs).length) := by
        simp only [chunkPdfGo, List.foldl_cons, if_neg hpe]
        rw [hlen]
      rw [hone]
      have hidx2 : (acc ++ reindexFrom acc.length pcs).map (fun x => x.meta.chunk_index) =
          (List.range ((acc ++ reindexFrom acc.length pcs).length)).map Int.ofNat := by
        have h5 := map_idx_appendReindexed pcs acc hidx
        rw [hlen]
        exact h5
      obtain ⟨g1, g2, g3, g4⟩ := ih (acc ++ reindexFrom acc.length pcs) hidx2
      refine ⟨g1, g2, ?_, ?_⟩
      · rw [g3]
        have hmap : (acc ++ reindexFrom acc.length pcs).map dropIdx =
            acc.map dropIdx ++ pcs.map dropIdx := by
          rw [List.map_append, reindexFrom_map dropIdx (fun ch n => rfl)]
        rw [hmap]
        have hfil : (pg :: pgs).filter (fun pg => !(pyStrip pg.2).isEmpty) =
            pg :: pgs.filter (fun pg => !(pyStrip pg.2).isEmpty) := by
          simp [List.filter_cons, hpf]
        rw [hfil]
        simp [List.append_assoc]
      · intro ch hm
        rcases g4 ch hm with h | ⟨p, t, hmem, hf, hp⟩
        · rcases List.mem_append.mp h with h2 | h2
          · exact Or.inl h2
          · refine Or.inr ⟨pg.1, pg.2, ?_, hpf, ?_⟩
            · have hpg : (pg.1, pg.2) = pg := rfl
              rw [hpg]
              exact List.mem_cons_self pg pgs
            · have hpage : ∀ x ∈ pcs, x.meta.page_number = some pg.1 := by
                intro x hx
                exact ((tokenBasedChunker_inv pg.2 c o (some pg.1)).1 x hx).2.2
              exact reindexFrom_forall (fun x n hx => hx) acc.length pcs hpage ch h2
        · exact Or.inr ⟨p, t, List.mem_cons_of_mem pg hmem, hf, hp⟩

set_option maxRecDepth 200000 in
/-- Claim C7 (confirmed): the per-page PDF chunking protocol. Every chunk of
`_chunk_pdf` carries `page_number = some p` for some 1-based page `(p, t)`
of the input whose text is not whitespace-only (so a skipped page number
appears in no chunk's metadata); global chunk indices are reassigned densely
as 0..N-1 across the concatenation; modulo the global index, the output is
exactly the concatenation of the standalone per-page chunker runs (each of
which starts its token offsets at 0); and on the S4 pages the produced
chunks have page numbers 1 and 3 only, page 2 being absent. -/
theorem pdf_paging_protocol :
    (∀ (pages : List Text) (c o : Int) ch, ch ∈ chunkPdf pages c o →
      ∃ p t, (p, t) ∈ pages.enumFrom 1 ∧ (pyStrip t).isEmpty = false ∧
        ch.meta.page_number = some p) ∧
    (∀ (pages : List Text) (c o : Int),
      (chunkPdf pages c o).map (fun x => x.meta.chunk_index) =
        (List.range (chunkPdf pages c o).length).map Int.ofNat) ∧
    (∀ (pages : List Text) (c o : Int),
      (chunkPdf pages c o).map dropIdx =
        (((pages.enumFrom 1).filter (fun pg => !(pyStrip pg.2).isEmpty)).map
          (fun pg => (tokenBasedChunker pg.2 c o (some pg.1)).map dropIdx)).flatten) ∧
    (chunkPdf s4Pages 200 50).map (fun x => x.meta.page_number) = [some 1, some 3] := by
  refine ⟨?_, ?_, ?_, ?_⟩
  · intro pages c o ch hm
    obtain ⟨_, _, _, g4⟩ := chunkPdfGo_spec c o (pages.enumFrom 1) [] rfl
    rcases g4 ch hm with h | ⟨p, t, hmem, hf, hp⟩
    · cases h
    · exact ⟨p, t, hmem, hf, hp⟩
  · intro pages c o
    obtain ⟨_, g2, _, _⟩ := chunkPdfGo_spec c o (pages.enumFrom 1) [] rfl
    exact g2
  · intro pages c o
    obtain ⟨_, _, g3, _⟩ := chunkPdfGo_spec c o (pages.enumFrom 1) [] rfl
    simpa using g3
  · decide


/-- Witness for the paging protocol: the first chunk of the small input maps
back to non-whitespace page 1. -/
theorem pdf_paging_protocol_witness :
    ∃ p t, (p, t) ∈ (smallPages.enumFrom 1) ∧ (pyStrip t).isEmpty = false ∧
      smallPagesChunk.meta.page_number = some p :=
  pdf_paging_protocol.1 smallPages 100 10 smallPagesChunk (by decide)

end ChunkSpec
